import Mathlib

/-!
# Verification of the screaming-channels attack engine

Shallow embedding, in Lean 4, of the statistical key-recovery core of the
`screaming_channels_ble` repository (files `src/attack.py`, `src/lib/analyze.py`,
`src/lib/dataset.py`), together with theorems settling the frozen claims about
its natural-language specification.

Conventions used throughout:
* Python lists / 1-D numpy arrays are `List ℚ` (trace samples, metric curves)
  or `List Nat` (index arrays); higher-rank arrays are nested lists.
* IEEE floats are idealised as `ℚ` (data, which is exact in the source) or `ℝ`
  (statistics involving square roots).  A float that can be NaN is an
  `Option ℝ` / explicit constructor (`NpVal`, `LogVal`): `none` / `.nan`
  models numpy's quiet NaN, which numpy produces instead of raising.
* numpy reductions (`argmax`, `argsort`) are embedded with numpy's documented
  tie/NaN behaviour: `argmax` returns the first maximal index and returns the
  index of the first NaN when one is present; `argsort` sorts ascending with
  NaN placed last.
-/

namespace SC2

/-- Binary popcount with structural fuel, modelling Python's
`bin(n).count("1")`. -/
def popCountAux : Nat → Nat → Nat
  | 0, _ => 0
  | fuel+1, n => if n = 0 then 0 else popCountAux fuel (n / 2) + n % 2

/-- `bin(n).count("1")` from `attack.py`. -/
def popCount (n : Nat) : Nat := popCountAux n n

/-- The Hamming-weight table `hw = [bin(n).count("1") for n in range(256)]`
from `attack.py`. -/
def hw : List Nat := (List.range 256).map popCount

/-- The AES S-box table `sbox` from `attack.py`. -/
def sbox : List Nat :=
[0x63,0x7c,0x77,0x7b,0xf2,0x6b,0x6f,0xc5,0x30,0x01,0x67,0x2b,0xfe,0xd7,0xab,0x76,
 0xca,0x82,0xc9,0x7d,0xfa,0x59,0x47,0xf0,0xad,0xd4,0xa2,0xaf,0x9c,0xa4,0x72,0xc0,
 0xb7,0xfd,0x93,0x26,0x36,0x3f,0xf7,0xcc,0x34,0xa5,0xe5,0xf1,0x71,0xd8,0x31,0x15,
 0x04,0xc7,0x23,0xc3,0x18,0x96,0x05,0x9a,0x07,0x12,0x80,0xe2,0xeb,0x27,0xb2,0x75,
 0x09,0x83,0x2c,0x1a,0x1b,0x6e,0x5a,0xa0,0x52,0x3b,0xd6,0xb3,0x29,0xe3,0x2f,0x84,
 0x53,0xd1,0x00,0xed,0x20,0xfc,0xb1,0x5b,0x6a,0xcb,0xbe,0x39,0x4a,0x4c,0x58,0xcf,
 0xd0,0xef,0xaa,0xfb,0x43,0x4d,0x33,0x85,0x45,0xf9,0x02,0x7f,0x50,0x3c,0x9f,0xa8,
 0x51,0xa3,0x40,0x8f,0x92,0x9d,0x38,0xf5,0xbc,0xb6,0xda,0x21,0x10,0xff,0xf3,0xd2,
 0xcd,0x0c,0x13,0xec,0x5f,0x97,0x44,0x17,0xc4,0xa7,0x7e,0x3d,0x64,0x5d,0x19,0x73,
 0x60,0x81,0x4f,0xdc,0x22,0x2a,0x90,0x88,0x46,0xee,0xb8,0x14,0xde,0x5e,0x0b,0xdb,
 0xe0,0x32,0x3a,0x0a,0x49,0x06,0x24,0x5c,0xc2,0xd3,0xac,0x62,0x91,0x95,0xe4,0x79,
 0xe7,0xc8,0x37,0x6d,0x8d,0xd5,0x4e,0xa9,0x6c,0x56,0xf4,0xea,0x65,0x7a,0xae,0x08,
 0xba,0x78,0x25,0x2e,0x1c,0xa6,0xb4,0xc6,0xe8,0xdd,0x74,0x1f,0x4b,0xbd,0x8b,0x8a,
 0x70,0x3e,0xb5,0x66,0x48,0x03,0xf6,0x0e,0x61,0x35,0x57,0xb9,0x86,0xc1,0x1d,0x9e,
 0xe1,0xf8,0x98,0x11,0x69,0xd9,0x8e,0x94,0x9b,0x1e,0x87,0xe9,0xce,0x55,0x28,0xdf,
 0x8c,0xa1,0x89,0x0d,0xbf,0xe6,0x42,0x68,0x41,0x99,0x2d,0x0f,0xb0,0x54,0xbb,0x16]

/-- `hw[sbox[x]]`, the leakage value of the `hw_sbox_out` model
(`compute_variables` in `attack.py`). -/
def hwSbox (x : Nat) : Nat := hw.getD (sbox.getD x 0) 0

/-- `hw[(p ^ k) ^ sbox[p ^ k]]`, the raw Hamming-distance value used by the
`"hd"` leakage model in `compute_variables` before the `- 1` shift. -/
def hdRaw (p k : Nat) : Nat := hw.getD ((p ^^^ k) ^^^ sbox.getD (p ^^^ k) 0) 0

/-- The `"hd"` model label `hw[(p ^ k) ^ sbox[p ^ k]] - 1` (over ℤ, so that a
hypothetical Hamming distance of 0 would produce the out-of-range label -1
rather than being masked by truncated subtraction). -/
def hdLabel (p k : Nat) : ℤ := (hdRaw p k : ℤ) - 1

/-! ## `compute_variables` (attack.py): leakage-model catalogue -/

/-- The data `compute_variables` sets up for a recognised leakage model:
the `CLASSES` list, the leakage function `VARIABLE_FUNC` (absent for the
ciphertext-based models `"c"`/`"hw_c"`, which read `CIPHERTEXTS` directly),
and the `FIXED_PLAINTEXT` flag. -/
structure VarSpec where
  classes : List Nat
  varFunc : Option (Nat → Nat → Nat)
  fixedPlaintext : Bool

/-- Embedding of `compute_variables(variable)` from `attack.py`: the
`if/elif` chain over the model-name string; an unrecognised name raises
`Exception("Variable type %s is not supported")`.  (The source contains a
second, unreachable `elif variable == "hw_k"` branch, identical to the first;
a single branch is equivalent.) -/
def compute_variables (var : String) : Except String VarSpec :=
  if var = "hw_sbox_out" then
    .ok ⟨List.range 9, some fun p k => hw.getD (sbox.getD (p ^^^ k) 0) 0, false⟩
  else if var = "hw_p_xor_k" then
    .ok ⟨List.range 9, some fun p k => hw.getD (p ^^^ k) 0, false⟩
  else if var = "sbox_out" then
    .ok ⟨List.range 256, some fun p k => sbox.getD (p ^^^ k) 0, false⟩
  else if var = "p_xor_k" then
    .ok ⟨List.range 256, some fun p k => p ^^^ k, false⟩
  else if var = "p" then
    .ok ⟨List.range 256, some fun p _ => p, true⟩
  else if var = "hw_p" then
    .ok ⟨List.range 9, some fun p _ => hw.getD p 0, true⟩
  else if var = "hw_k" then
    .ok ⟨List.range 9, some fun _ k => hw.getD k 0, false⟩
  else if var = "k" then
    .ok ⟨List.range 256, some fun _ k => k, false⟩
  else if var = "hd" then
    .ok ⟨List.range 7, some fun p k => hw.getD ((p ^^^ k) ^^^ sbox.getD (p ^^^ k) 0) 0 - 1, false⟩
  else if var = "fixed_vs_fixed" then
    .ok ⟨List.range 2, some fun p k => if p ^^^ k = 48 then 1 else 0, false⟩
  else if var = "c" then
    .ok ⟨List.range 256, none, false⟩
  else if var = "hw_c" then
    .ok ⟨List.range 9, none, false⟩
  else
    .error ("Variable type " ++ var ++ " is not supported")

/-- The closed catalogue of leakage-model identifiers accepted by
`compute_variables`. -/
def leakageModelCatalog : List String :=
  ["hw_sbox_out", "hw_p_xor_k", "sbox_out", "p_xor_k", "p", "hw_p",
   "hw_k", "k", "hd", "fixed_vs_fixed", "c", "hw_c"]

/-! ## `attack` command (attack.py): fixed-key precondition -/

/-- The condition of the guard
`if not FIXED_KEY and variable != "hw_p" and variable != "p": raise ...`
in the `attack()` command of `attack.py`. -/
def attackKeyModelMismatch (fixedKey : Bool) (var : String) : Bool :=
  !fixedKey && !(var == "hw_p") && !(var == "p")

/-- The `attack()` command after trace loading/alignment: the fixed-key
precondition guard, followed by scoring (`compute_variables`,
`reduce_traces`, `run_attack`), abstracted as a thunk so that the embedding
records that scoring only runs when the guard passes. -/
def attack_cmd (fixedKey : Bool) (var : String)
    (runScoring : Unit → List (List ℚ)) : Except String (List (List ℚ)) :=
  if attackKeyModelMismatch fixedKey var then
    .error "This set DOES NOT use a FIXED KEY"
  else
    .ok (runScoring ())

/-! ## Template (pdf) scoring accumulation (run_attack, attack.py) -/

/-- The value `x = np.log(p_kj)`: either finite or `-inf` (when the density
underflows to zero). -/
inductive LogVal where
  | negInf : LogVal
  | fin : ℚ → LogVal
deriving DecidableEq

/-- IEEE-style addition on log-likelihood values: adding `-inf` gives
`-inf`. -/
def logAdd : LogVal → LogVal → LogVal
  | .negInf, _ => .negInf
  | .fin _, .negInf => .negInf
  | .fin a, .fin b => .fin (a + b)

/-- One iteration of the pdf-mode accumulation in `run_attack`:
`x = np.log(p_kj); if x == -np.inf: continue; P_k_tmp[k] += x`. -/
def pdfAccumStep (acc : LogVal) (x : LogVal) : LogVal :=
  if x = .negInf then acc else logAdd acc x

/-- The per-hypothesis running score `P_k` after all traces, starting from
`np.zeros(256)`. -/
def pdfScore (terms : List LogVal) : LogVal :=
  terms.foldl pdfAccumStep (.fin 0)

/-! ## `align` (lib/analyze.py): shift-magnitude check -/

/-- The Python expression `len(template/10)` from
`assert np.abs(shift) < len(template/10)` in `align`: `template/10` divides
a numpy array elementwise, so its length is the length of `template`. -/
def lenOfTemplateDivTen (template : List ℚ) : Nat :=
  (template.map (fun v => v / 10)).length

/-- Whether `align(..., ignore, ...)` aborts on the computed shift:
`if not ignore: assert np.abs(shift) < len(template/10)`. -/
def alignShiftAborts (ignore : Bool) (template : List ℚ) (shift : ℤ) : Bool :=
  !ignore && !(shift.natAbs < lenOfTemplateDivTen template)

/-! ## `Profile` persistence (lib/dataset.py) -/

/-- The in-memory `Profile` object of `lib/dataset.py` (numeric fields only;
numpy arrays are nested lists).  `pointStart`/`pointEnd` model the
`POINT_START`/`POINT_END` attributes, `none` being the class-level default
`None`. -/
structure Profile where
  pois : List (List Nat)
  rs : List (List ℚ)
  rzs : List (List ℚ)
  means : List (List (List ℚ))
  stds : List (List (List ℚ))
  covs : List (List (List (List ℚ)))
  meanTrace : List ℚ
  pointStart : Option Nat
  pointEnd : Option Nat
deriving DecidableEq

/-- The profile directory on disk: exactly the seven `.npy` files written by
`Profile.save` (`POIS`, `PROFILE_RS`, `PROFILE_RZS`, `PROFILE_MEANS`,
`PROFILE_STDS`, `PROFILE_COVS`, `PROFILE_MEAN_TRACE`).  `np.save`/`np.load`
round-trip arrays losslessly. -/
structure ProfileDir where
  poisFile : List (List Nat)
  rsFile : List (List ℚ)
  rzsFile : List (List ℚ)
  meansFile : List (List (List ℚ))
  stdsFile : List (List (List ℚ))
  covsFile : List (List (List (List ℚ)))
  meanTraceFile : List ℚ
deriving DecidableEq

/-- `Profile.save`: writes the seven numeric arrays (and nothing else) to the
profile directory. -/
def Profile.save (p : Profile) : ProfileDir :=
  ⟨p.pois, p.rs, p.rzs, p.means, p.stds, p.covs, p.meanTrace⟩

/-- `Profile.load`: reads the seven `.npy` files back into the object's
fields, leaving every other attribute of `self` untouched. -/
def Profile.load (self : Profile) (dir : ProfileDir) : Profile :=
  { self with
    pois := dir.poisFile, rs := dir.rsFile, rzs := dir.rzsFile,
    means := dir.meansFile, covs := dir.covsFile, stds := dir.stdsFile,
    meanTrace := dir.meanTraceFile }

/-- A freshly constructed `Profile()` before any load: all data attributes at
their class-level defaults (`None`, modelled by empty arrays for the array
fields and `none` for `POINT_START`/`POINT_END`). -/
def freshProfile : Profile :=
  ⟨[], [], [], [], [], [], [], none, none⟩

/-- A concrete profile with nontrivial contents in every field, used to
exercise the save/load round-trip. -/
def cexProfile : Profile :=
  ⟨[[3]], [[1/2]], [[2]], [[[5]]], [[[1]]], [[[[7]]]], [4, 9], some 1, some 2⟩

/-! ## numpy statistics over exact rationals -/

/-- `np.average` of a 1-D array (division by zero, i.e. the empty list, is
the `ℚ` junk value 0; every use below is guarded by nonemptiness). -/
def npMean (l : List ℚ) : ℚ := l.sum / l.length

/-- Population variance `np.var` of a 1-D array. -/
def npVar (l : List ℚ) : ℚ := npMean (l.map (fun x => (x - npMean l) ^ 2))

/-- Column `t` of a list of rows (sample index `t` of each trace). -/
def column (rows : List (List ℚ)) (t : Nat) : List ℚ :=
  rows.map (fun row => row.getD t 0)

/-- A numpy float that may be NaN or infinite: the result of `a / b` on
rationals with numpy semantics (`0/0 = nan`, `a/0 = inf` for `a ≠ 0`,
warning but no exception). -/
inductive NpVal where
  | nan : NpVal
  | inf : NpVal
  | fin : ℚ → NpVal
deriving DecidableEq

/-- numpy division: never raises; produces NaN or inf on a zero
denominator. -/
def npDiv (a b : ℚ) : NpVal :=
  if b = 0 then (if a = 0 then .nan else .inf) else .fin (a / b)

/-! ## `estimate` + `estimate_snr` (attack.py), for one key byte

`SETS[bnum]` is a list of per-class trace sets; `estimate` computes
`MEANS[bnum][cla] = np.average(SETS[bnum][cla], axis=0)` and
`VARS[bnum][cla] = np.var(SETS[bnum][cla], axis=0)`;
`estimate_snr` computes
`SNRS[bnum] = np.var(MEANS[bnum], axis=0) / np.average(VARS[bnum], axis=0)`. -/

/-- Per-class means at sample `t` (`MEANS[bnum][:, t]`). -/
def classMeansAt (sets : List (List (List ℚ))) (t : Nat) : List ℚ :=
  sets.map (fun cls => npMean (column cls t))

/-- Per-class variances at sample `t` (`VARS[bnum][:, t]`). -/
def classVarsAt (sets : List (List (List ℚ))) (t : Nat) : List ℚ :=
  sets.map (fun cls => npVar (column cls t))

/-- The SNR value at sample `t`:
`np.var(MEANS[bnum], axis=0)[t] / np.average(VARS[bnum], axis=0)[t]`. -/
def snrAt (sets : List (List (List ℚ))) (t : Nat) : NpVal :=
  npDiv (npVar (classMeansAt sets t)) (npMean (classVarsAt sets t))

/-- The SNR curve over `numSamples` samples (`SNRS[bnum]`). -/
def snrCurve (sets : List (List (List ℚ))) (numSamples : Nat) : List NpVal :=
  (List.range numSamples).map (snrAt sets)

/-! ## `find_pois` (attack.py): arg-max-and-suppress POI selection -/

/-- `np.argmax` over a rational list: index of the first maximal entry. -/
def argmaxQ (l : List ℚ) : Nat :=
  (List.range l.length).foldl
    (fun best j => if l.getD j 0 > l.getD best 0 then j else best) 0

/-- The suppression step of `find_pois`:
`pmin = max(0, poi - poi_spacing); pmax = min(poi + poi_spacing, len(temp));`
`for j in range(pmin, pmax): temp[j] = 0`. -/
def zeroWindow (temp : List ℚ) (poi spacing : Nat) : List ℚ :=
  (List.range temp.length).map
    (fun j => if max 0 (poi - spacing) ≤ j ∧ j < min (poi + spacing) temp.length
              then 0 else temp.getD j 0)

/-- The selection loop of `find_pois` for one key byte, returning each chosen
POI together with the value of the working curve `temp` at the moment of its
selection. -/
def findPoisGo (spacing : Nat) : Nat → List ℚ → List (Nat × ℚ)
  | 0, _ => []
  | n + 1, temp =>
    let poi := argmaxQ temp
    (poi, temp.getD poi 0) :: findPoisGo spacing n (zeroWindow temp poi spacing)

/-- `find_pois` for one key byte: `num_pois` iterations of
arg-max-and-suppress over the informativeness curve. -/
def find_pois (curve : List ℚ) (numPois spacing : Nat) : List Nat :=
  (findPoisGo spacing numPois curve).map Prod.fst

/-- The curve values at the moments of selection (`temp[poi]` at each
iteration of `find_pois`). -/
def findPoisVals (curve : List ℚ) (numPois spacing : Nat) : List ℚ :=
  (findPoisGo spacing numPois curve).map Prod.snd

/-- Distance between two sample indices. -/
def natDist (a b : Nat) : Nat := max a b - min a b

/-! ## Float score vectors with NaN (`Option ℝ`), numpy argmax / argsort

Scores produced by `scipy.stats.pearsonr` and accumulated into `maxcpa` are
floats that can be NaN (`pearsonr` on a constant input returns `nan` with a
`ConstantInputWarning`, it does not raise).  A score is `Option ℝ`, with
`none` for NaN. -/

/-- IEEE float addition on possibly-NaN scores: NaN propagates. -/
def optAdd : Option ℝ → Option ℝ → Option ℝ
  | some a, some b => some (a + b)
  | _, _ => none

/-- The scan loop of numpy's `argmax` after the first element: keep the
first index of the running maximum; on encountering a NaN, numpy records its
index and breaks. -/
noncomputable def npArgmaxGo (s : Nat → Option ℝ) : Nat → Nat → ℝ → Nat → Nat
  | 0, maxInd, _, _ => maxInd
  | fuel + 1, maxInd, mp, i =>
    match s i with
    | none => i
    | some x =>
      if mp < x then npArgmaxGo s fuel i x (i + 1)
      else npArgmaxGo s fuel maxInd mp (i + 1)

/-- `np.argmax` of `[s 0, ..., s (n-1)]`: first index of the maximum, or the
index of the first NaN when one is present. -/
noncomputable def npArgmax (s : Nat → Option ℝ) (n : Nat) : Nat :=
  if n = 0 then 0
  else
    match s 0 with
    | none => 0
    | some x0 => npArgmaxGo s (n - 1) 0 x0 1

/-- The ascending comparison used to model `np.argsort` on a float vector:
compare values, NaN sorting last, ties kept in index order. -/
def npLe (s : Nat → Option ℝ) (i j : Nat) : Prop :=
  match s i, s j with
  | some a, some b => a < b ∨ (a = b ∧ i ≤ j)
  | some _, none => True
  | none, some _ => False
  | none, none => i ≤ j

/-- `npLe` as a Bool-valued comparator (classically decided). -/
noncomputable def npLeB (s : Nat → Option ℝ) (i j : Nat) : Bool :=
  @decide (npLe s i j) (Classical.propDecidable _)

/-- `np.argsort(scores)[::-1]`: indices `0..n-1` sorted ascending by score
(NaN last) and then reversed, as in `run_attack`/`attack_recombined`. -/
noncomputable def npArgsortDesc (s : Nat → Option ℝ) (n : Nat) : List Nat :=
  ((List.range n).mergeSort (npLeB s)).reverse

/-- `list(cparefs).index(key)`: the rank (PGE) of `key` in the
descending-score ordering. -/
noncomputable def npRank (s : Nat → Option ℝ) (n key : Nat) : Nat :=
  (npArgsortDesc s n).indexOf key

/-! ## `attack_recombined` (attack.py): two-channel score fusion -/

/-- The recombined score matrix:
`maxcpa["RECOMBIN"][bnum][kguess] = maxcpa["AMPLITUDE"][bnum][kguess] + maxcpa["PHASE_ROT"][bnum][kguess]`. -/
def recombine (ampl phase : Nat → Nat → Option ℝ) (bnum kguess : Nat) : Option ℝ :=
  optAdd (ampl bnum kguess) (phase bnum kguess)

/-- `bestguess[bnum] = np.argmax(maxcpa["RECOMBIN"][bnum])`. -/
noncomputable def recombBestguess (ampl phase : Nat → Nat → Option ℝ) (bnum : Nat) : Nat :=
  npArgmax (recombine ampl phase bnum) 256

/-- `pge[bnum] = list(np.argsort(maxcpa["RECOMBIN"][bnum])[::-1]).index(KEYS[0][bnum])`. -/
noncomputable def recombRank (ampl phase : Nat → Nat → Option ℝ) (bnum key : Nat) : Nat :=
  npRank (recombine ampl phase bnum) 256 key

/-! ## The `pcc` branch of `run_attack` on a zero-noise synthetic set

One key byte, one POI.  The synthetic set postulated by the spec is given by
a plaintext list `ps` and the true key byte `kt`: the trace amplitude at the
designated sample is exactly `hw[sbox[p ^ kt]]`.  Profiling
(`compute_variables` with the `hw_sbox_out` model + `classify` + `estimate` +
`build_profile`) over that same data yields, for each class, the mean of the
traces whose leak variable equals that class. -/

/-- The synthetic zero-noise traces, reduced to the designated sample:
`TRACES_REDUCED[0][j] = hw[sbox[ps[j] ^ kt]]`. -/
def synthTraces (ps : List Nat) (kt : Nat) : List ℚ :=
  ps.map (fun p => (hwSbox (p ^^^ kt) : ℚ))

/-- The traces of class `c` (`SETS[0][c]` at the designated sample):
those whose leak variable `hw[sbox[p ^ kt]]` equals `c`. -/
def classSet (ps : List Nat) (kt c : Nat) : List ℚ :=
  (ps.filter (fun p => hwSbox (p ^^^ kt) == c)).map (fun p => (hwSbox (p ^^^ kt) : ℚ))

/-- `PROFILE.MEANS[0][c]` at the designated POI: the mean of the class-`c`
traces. -/
def classMean (ps : List Nat) (kt c : Nat) : ℚ := npMean (classSet ps kt c)

/-- The `leaks` array for hypothesis `kg` in the `pcc` branch of
`run_attack`: `leaks[j] = PROFILE.MEANS[0][VARIABLE_FUNC(ps[j], kg)]`. -/
def pccLeaks (ps : List Nat) (kt kg : Nat) : List ℚ :=
  ps.map (fun p => classMean ps kt (hwSbox (p ^^^ kg)))

/-- Sum of squared deviations from the mean, `Σ (x - mean xs)²`. -/
def centeredSumSq (l : List ℚ) : ℚ :=
  (l.map (fun x => (x - npMean l) ^ 2)).sum

/-- Sum of products of deviations, `Σ (x - mean xs) * (y - mean ys)`. -/
def centeredSumProd (xs ys : List ℚ) : ℚ :=
  (List.zipWith (fun x y => (x - npMean xs) * (y - npMean ys)) xs ys).sum

/-- `scipy.stats.pearsonr(xs, ys)[0]`: the sample correlation coefficient,
`NaN` (with a warning, no exception) when either input is constant. -/
noncomputable def pearsonR (xs ys : List ℚ) : Option ℝ :=
  if centeredSumSq xs = 0 ∨ centeredSumSq ys = 0 then none
  else some ((centeredSumProd xs ys : ℝ) /
    (Real.sqrt (centeredSumSq xs : ℝ) * Real.sqrt (centeredSumSq ys : ℝ)))

/-- `maxcpa[0][kg]` for the synthetic set with one POI:
`pearsonr(leaks[:, 0], TRACES_REDUCED[0][:, 0])` (the sum over POIs has a
single summand starting from 0, and `0 + r = r`; NaN propagates). -/
noncomputable def pccScores (ps : List Nat) (kt kg : Nat) : Option ℝ :=
  optAdd (some 0) (pearsonR (pccLeaks ps kt kg) (synthTraces ps kt))

/-- `bestguess[0] = np.argmax(maxcpa[0])` for the synthetic attack. -/
noncomputable def pccBestguess (ps : List Nat) (kt : Nat) : Nat :=
  npArgmax (pccScores ps kt) 256

/-- `pge[0] = list(np.argsort(maxcpa[0])[::-1]).index(KEYS[0][0])` for the
synthetic attack. -/
noncomputable def pccPge (ps : List Nat) (kt : Nat) : Nat :=
  npRank (pccScores ps kt) 256 kt

/-- The plaintexts of the counterexample trace set: nine plaintexts, one per
class of the `hw_sbox_out` model under the true key byte 2, all of them with
`hw[sbox[p]] = 4`. -/
def cexPlaintexts : List Nat := [80, 11, 59, 44, 16, 7, 0, 36, 127]

/-! # Theorems -/

set_option maxRecDepth 8000

/-! ## Table facts about `hw` and `sbox` -/

/-- S-box/Hamming-weight table fact: the Hamming distance
`hw[x ^ sbox[x]]` is between 1 and 7 for every byte (the AES S-box has no
fixed point and no "anti-fixed" point). -/
theorem hd_range_table :
    ∀ x ∈ List.range 256,
      1 ≤ hw.getD (x ^^^ sbox.getD x 0) 0 ∧ hw.getD (x ^^^ sbox.getD x 0) 0 ≤ 7 := by
  decide

/-- Every leakage value of the `hw_sbox_out` model is at most 8. -/
theorem hwSbox_le_eight : ∀ x ∈ List.range 256, hwSbox x ≤ 8 := by
  decide

/-- 125 (= 0x7d) is the unique byte whose S-box output has Hamming weight 8
(i.e. `sbox[125] = 0xff`). -/
theorem hwSbox_eq_eight_iff : ∀ x ∈ List.range 256, (hwSbox x = 8 ↔ x = 125) := by
  decide

/-- Bytes below 256 stay below 256 under xor. -/
theorem xor_lt_256 {a b : Nat} (ha : a < 256) (hb : b < 256) : a ^^^ b < 256 := by
  have h : a ^^^ b < 2 ^ 8 := Nat.xor_lt_two_pow (by simpa using ha) (by simpa using hb)
  simpa using h

/-! ## C10 -/

/-- C10: for every plaintext byte `p` and key byte `k`, the `"hd"` leakage
model label `hw[(p ^ k) ^ sbox[p ^ k]] - 1` lies in the declared class set
`{0, ..., 6}` (equivalently `1 ≤ hw[x ^ sbox[x]] ≤ 7` for every byte `x`),
so `classify` never indexes a class bucket outside `CLASSES` for this
model. -/
theorem c10_hd_class_range (p k : Nat) (hp : p < 256) (hk : k < 256) :
    (1 ≤ hdRaw p k ∧ hdRaw p k ≤ 7) ∧ 0 ≤ hdLabel p k ∧ hdLabel p k ≤ 6 := by
  have hx : p ^^^ k < 256 := xor_lt_256 hp hk
  have h := hd_range_table (p ^^^ k) (List.mem_range.mpr hx)
  have h1 : 1 ≤ hdRaw p k := h.1
  have h2 : hdRaw p k ≤ 7 := h.2
  refine ⟨⟨h1, h2⟩, ?_, ?_⟩ <;> · unfold hdLabel; omega

/-- C10 witness: the bound at the concrete input `p = 3`, `k = 5`. -/
theorem c10_hd_class_range_witness :
    (1 ≤ hdRaw 3 5 ∧ hdRaw 3 5 ≤ 7) ∧ 0 ≤ hdLabel 3 5 ∧ hdLabel 3 5 ≤ 6 :=
  c10_hd_class_range 3 5 (by decide) (by decide)

/-! ## C9 -/

/-- C9: `compute_variables` succeeds exactly on the closed catalogue of
leakage-model identifiers; every other string raises at call time (no silent
default). -/
theorem c9_leakage_model_catalog (var : String) :
    (∃ spec, compute_variables var = Except.ok spec) ↔ var ∈ leakageModelCatalog := by
  constructor
  · rintro ⟨spec, hs⟩
    by_contra hmem
    simp only [leakageModelCatalog, List.mem_cons, List.not_mem_nil, or_false, not_or] at hmem
    obtain ⟨h1, h2, h3, h4, h5, h6, h7, h8, h9, h10, h11, h12⟩ := hmem
    rw [compute_variables, if_neg h1, if_neg h2, if_neg h3, if_neg h4, if_neg h5, if_neg h6,
      if_neg h7, if_neg h8, if_neg h9, if_neg h10, if_neg h11, if_neg h12] at hs
    exact absurd hs (by simp)
  · intro hmem
    simp only [leakageModelCatalog, List.mem_cons, List.not_mem_nil, or_false] at hmem
    rcases hmem with h | h | h | h | h | h | h | h | h | h | h | h <;> subst h <;>
      exact ⟨_, rfl⟩

/-! ## C7 -/

/-- C7: attacking a dataset whose key is not fixed with any leakage model
other than the plaintext-only ones (`"hw_p"`, `"p"`) raises before any
scoring is performed: `attack_cmd` returns the error and never runs its
scoring thunk. -/
theorem c7_fixed_key_precondition (var : String) (runScoring : Unit → List (List ℚ))
    (hvar1 : var ≠ "hw_p") (hvar2 : var ≠ "p") :
    attack_cmd false var runScoring = .error "This set DOES NOT use a FIXED KEY" := by
  simp [attack_cmd, attackKeyModelMismatch, hvar1, hvar2]

/-- C7 witness: the guard fires for the default model `hw_sbox_out` on a
variable-key set. -/
theorem c7_fixed_key_precondition_witness :
    attack_cmd false "hw_sbox_out" (fun _ => [[1]]) =
      .error "This set DOES NOT use a FIXED KEY" :=
  c7_fixed_key_precondition "hw_sbox_out" (fun _ => [[1]]) (by decide) (by decide)

/-! ## C6 -/

/-- The pdf accumulation keeps a finite value whatever terms arrive, for any
finite starting score. -/
theorem pdfScore_foldl_fin (terms : List LogVal) :
    ∀ q0 : ℚ, ∃ q : ℚ, terms.foldl pdfAccumStep (.fin q0) = .fin q := by
  induction terms with
  | nil => exact fun q0 => ⟨q0, rfl⟩
  | cons t ts ih =>
    intro q0
    cases t with
    | negInf => simpa [pdfAccumStep] using ih q0
    | fin x => simpa [pdfAccumStep, logAdd] using ih (q0 + x)

/-- C6: in template/pdf mode a `-inf` log-density (zero density) is skipped
without being added and without aborting, so the per-hypothesis running
score stays finite after processing any sequence of traces. -/
theorem c6_pdf_skip_keeps_score_finite :
    (∀ acc : LogVal, pdfAccumStep acc .negInf = acc) ∧
    ∀ terms : List LogVal, ∃ q : ℚ, pdfScore terms = .fin q := by
  refine ⟨fun acc => rfl, fun terms => ?_⟩
  simpa [pdfScore] using pdfScore_foldl_fin terms 0

/-! ## C4 -/

/-- C4 (code bug): the abort threshold written as `len(template/10)` in
`align` equals the full template length (numpy divides elementwise, leaving
the length unchanged), not 10% of it; consequently, with `ignore=False`, a
computed shift of magnitude 10 on a 20-sample template — 50% of the length,
far above the ~10% the spec requires to abort — does not abort. -/
theorem c4_align_shift_check_code_bug :
    (∀ template : List ℚ, lenOfTemplateDivTen template = template.length) ∧
    alignShiftAborts false (List.replicate 20 0) 10 = false := by
  constructor
  · intro t; simp [lenOfTemplateDivTen]
  · decide

/-! ## C2 -/

/-- C2 counterexample: saving and re-loading a profile into a fresh
`Profile()` object does not reproduce the `point_start`/`point_end` markers
(they are not among the seven arrays `save` writes), so `load(save(p))`
differs from `p`. -/
theorem c2_profile_roundtrip_counterexample :
    (freshProfile.load cexProfile.save).pointStart = none ∧
    (freshProfile.load cexProfile.save).pointEnd = none ∧
    cexProfile.pointStart = some 1 ∧ cexProfile.pointEnd = some 2 ∧
    freshProfile.load cexProfile.save ≠ cexProfile := by
  refine ⟨rfl, rfl, rfl, rfl, ?_⟩
  intro h
  have := congrArg Profile.pointStart h
  simp [Profile.load, Profile.save, freshProfile, cexProfile] at this

/-- C2 amended: the save/load round-trip restores exactly the seven numeric
arrays (`POIS`, `RS`, `RZS`, `MEANS`, `STDS`, `COVS`, `MEAN_TRACE`);
`point_start`/`point_end` are not persisted, so after loading they keep the
destination object's values (unset on a fresh profile). -/
theorem c2_profile_roundtrip_amended (p q : Profile) :
    (q.load p.save).pois = p.pois ∧ (q.load p.save).rs = p.rs ∧
    (q.load p.save).rzs = p.rzs ∧ (q.load p.save).means = p.means ∧
    (q.load p.save).stds = p.stds ∧ (q.load p.save).covs = p.covs ∧
    (q.load p.save).meanTrace = p.meanTrace ∧
    (q.load p.save).pointStart = q.pointStart ∧
    (q.load p.save).pointEnd = q.pointEnd :=
  ⟨rfl, rfl, rfl, rfl, rfl, rfl, rfl, rfl, rfl⟩

/-! ## Statistics helper lemmas -/

/-- The mean of a nonempty list of equal values is that value. -/
theorem npMean_const (l : List ℚ) (c : ℚ) (hne : l ≠ []) (h : ∀ x ∈ l, x = c) :
    npMean l = c := by
  have hsum : l.sum = l.length • c := List.sum_eq_card_nsmul l c h
  have hlen : (l.length : ℚ) ≠ 0 := by
    have h0 : l.length ≠ 0 := fun h0 => hne (List.length_eq_zero.mp h0)
    exact_mod_cast h0
  rw [npMean, hsum, nsmul_eq_mul]
  exact mul_div_cancel_left₀ c hlen

/-- The population variance of a nonempty list of equal values is 0. -/
theorem npVar_const (l : List ℚ) (c : ℚ) (hne : l ≠ []) (h : ∀ x ∈ l, x = c) :
    npVar l = 0 := by
  have hm : npMean l = c := npMean_const l c hne h
  have hz : ∀ y ∈ l.map (fun x => (x - npMean l) ^ 2), y = 0 := by
    intro y hy
    obtain ⟨x, hx, rfl⟩ := List.mem_map.mp hy
    rw [h x hx, hm]
    ring
  have hne' : l.map (fun x => (x - npMean l) ^ 2) ≠ [] := by
    simpa using hne
  exact npMean_const _ 0 hne' hz

/-! ## C5 -/

/-- On a constant trace set (every trace equal to a fixed vector `v`, every
class nonempty) every sample of the SNR curve is NaN: the between-class
variance and the averaged within-class variance are both 0, and numpy's
`0/0` is NaN. -/
theorem snrCurve_const_nan (sets : List (List (List ℚ))) (v : List ℚ)
    (n : Nat) (hne : sets ≠ []) (hcls : ∀ cls ∈ sets, cls ≠ [])
    (hconst : ∀ cls ∈ sets, ∀ tr ∈ cls, tr = v) :
    snrCurve sets n = List.replicate n NpVal.nan := by
  have key : ∀ t : Nat, snrAt sets t = NpVal.nan := by
    intro t
    have hmeans : ∀ y ∈ classMeansAt sets t, y = v.getD t 0 := by
      intro y hy
      obtain ⟨cls, hc, rfl⟩ := List.mem_map.mp hy
      refine npMean_const _ _ (by simpa [column] using hcls cls hc) ?_
      intro x hx
      obtain ⟨row, hrow, rfl⟩ := List.mem_map.mp hx
      rw [hconst cls hc row hrow]
    have hvars : ∀ y ∈ classVarsAt sets t, y = 0 := by
      intro y hy
      obtain ⟨cls, hc, rfl⟩ := List.mem_map.mp hy
      refine npVar_const _ (v.getD t 0) (by simpa [column] using hcls cls hc) ?_
      intro x hx
      obtain ⟨row, hrow, rfl⟩ := List.mem_map.mp hx
      rw [hconst cls hc row hrow]
    have h1 : npVar (classMeansAt sets t) = 0 :=
      npVar_const _ (v.getD t 0) (by simpa [classMeansAt] using hne) hmeans
    have h2 : npMean (classVarsAt sets t) = 0 :=
      npMean_const _ 0 (by simpa [classVarsAt] using hne) hvars
    simp [snrAt, h1, h2, npDiv]
  have : (List.range n).map (snrAt sets) = (List.range n).map (fun _ => NpVal.nan) :=
    List.map_congr_left (fun t _ => key t)
  simp only [snrCurve, this]
  simp [List.map_const', List.length_range]

/-- C5 counterexample: the constant trace set with two classes, one trace
`[1, 1]` in each class, has zero within-class variance at every class and
sample; the SNR curve computed by `estimate_snr` is `[NaN, NaN]` (numpy
`0/0`), not `[0, 0]` as the claim requires. -/
theorem c5_snr_counterexample :
    snrCurve [[[1, 1]], [[1, 1]]] 2 = [NpVal.nan, NpVal.nan] ∧
    NpVal.nan ≠ NpVal.fin 0 := by
  refine ⟨?_, fun h => NpVal.noConfusion h⟩
  have h := snrCurve_const_nan [[[1, 1]], [[1, 1]]] [1, 1] 2
    (by simp) (by simp) (by simp)
  simpa using h

/-- C5 amended: on a constant trace set (zero within-class variance because
every trace equals a fixed vector `v`; every class nonempty) the SNR
computation raises no exception — numpy division only warns — but yields NaN
(`0/0`), not 0, at every sample, and this NaN-valued curve is what POI
search would receive. -/
theorem c5_snr_constant_traces_amended (sets : List (List (List ℚ))) (v : List ℚ)
    (n : Nat) (hne : sets ≠ []) (hcls : ∀ cls ∈ sets, cls ≠ [])
    (hconst : ∀ cls ∈ sets, ∀ tr ∈ cls, tr = v) :
    snrCurve sets n = List.replicate n NpVal.nan :=
  snrCurve_const_nan sets v n hne hcls hconst

/-- C5 witness: the amended statement at a concrete constant trace set with
three classes of one trace `[2, 3]` each. -/
theorem c5_snr_witness :
    ([[[2, 3]], [[2, 3]], [[2, 3]]] : List (List (List ℚ))) ≠ [] ∧
    snrCurve [[[2, 3]], [[2, 3]], [[2, 3]]] 3 = List.replicate 3 NpVal.nan :=
  ⟨by simp,
   c5_snr_constant_traces_amended [[[2, 3]], [[2, 3]], [[2, 3]]] [2, 3] 3
     (by simp) (by simp) (by simp)⟩

/-! ## C3 -/

/-- Suppression does not change the length of the working curve. -/
theorem zeroWindow_length (temp : List ℚ) (poi spacing : Nat) :
    (zeroWindow temp poi spacing).length = temp.length := by
  simp [zeroWindow]

/-- Pointwise description of the suppressed curve. -/
theorem zeroWindow_getD (temp : List ℚ) (c s j : Nat) :
    (zeroWindow temp c s).getD j 0 =
      if max 0 (c - s) ≤ j ∧ j < min (c + s) temp.length then 0
      else temp.getD j 0 := by
  by_cases hj : j < temp.length
  · have hj' : j < (zeroWindow temp c s).length := by rwa [zeroWindow_length]
    rw [List.getD_eq_getElem _ _ hj']
    simp [zeroWindow]
  · have hge : temp.length ≤ j := le_of_not_lt hj
    have hc : ¬ (max 0 (c - s) ≤ j ∧ j < min (c + s) temp.length) := by omega
    rw [if_neg hc, List.getD_eq_default _ _ (by rwa [zeroWindow_length]),
      List.getD_eq_default _ _ hge]

/-- Entries that are already zero stay zero under suppression. -/
theorem zeroWindow_getD_zero (temp : List ℚ) (c s j : Nat)
    (h : temp.getD j 0 = 0) : (zeroWindow temp c s).getD j 0 = 0 := by
  rw [zeroWindow_getD]
  split_ifs with hc
  · rfl
  · exact h

/-- Every in-range entry strictly closer than `spacing` to the suppressed POI
becomes zero. -/
theorem zeroWindow_getD_window (temp : List ℚ) (c s j : Nat)
    (hj : j < temp.length) (hd : natDist j c < s) :
    (zeroWindow temp c s).getD j 0 = 0 := by
  rw [zeroWindow_getD, if_pos]
  simp only [natDist] at hd
  omega

/-- Invariant of the `find_pois` selection loop: if every selected value is
strictly positive, the selected POIs are pairwise at least `spacing` apart,
and every selected POI carries a nonzero entry of the initial working
curve. -/
theorem findPoisGo_spaced (spacing : Nat) :
    ∀ (n : Nat) (temp : List ℚ),
      (∀ pv ∈ findPoisGo spacing n temp, 0 < pv.2) →
      ((findPoisGo spacing n temp).Pairwise
          (fun a b => spacing ≤ natDist a.1 b.1) ∧
        ∀ pv ∈ findPoisGo spacing n temp, temp.getD pv.1 0 ≠ 0) := by
  intro n
  induction n with
  | zero => intro temp _; simp [findPoisGo]
  | succ m ih =>
    intro temp hpos
    have heq : findPoisGo spacing (m + 1) temp
        = (argmaxQ temp, temp.getD (argmaxQ temp) 0)
          :: findPoisGo spacing m (zeroWindow temp (argmaxQ temp) spacing) := rfl
    rw [heq] at hpos ⊢
    have hv : (0 : ℚ) < temp.getD (argmaxQ temp) 0 :=
      hpos _ (List.mem_cons_self _ _)
    have hpos' : ∀ pv ∈ findPoisGo spacing m (zeroWindow temp (argmaxQ temp) spacing),
        0 < pv.2 := fun pv h => hpos pv (List.mem_cons_of_mem _ h)
    obtain ⟨ihPW, ihND⟩ := ih (zeroWindow temp (argmaxQ temp) spacing) hpos'
    have hnotzeroed : ∀ pv ∈ findPoisGo spacing m (zeroWindow temp (argmaxQ temp) spacing),
        spacing ≤ natDist (argmaxQ temp) pv.1 := by
      intro pv hmem
      have hnd := ihND pv hmem
      by_contra hlt
      push_neg at hlt
      by_cases hless : pv.1 < temp.length
      · refine hnd (zeroWindow_getD_window temp (argmaxQ temp) spacing pv.1 hless ?_)
        simp only [natDist] at hlt ⊢
        omega
      · exact hnd (List.getD_eq_default _ _
          (by rw [zeroWindow_length]; omega))
    constructor
    · refine List.pairwise_cons.mpr ⟨hnotzeroed, ihPW⟩
    · intro pv hmem
      rcases List.mem_cons.mp hmem with h | h
      · rw [h]
        exact ne_of_gt hv
      · have hnd := ihND pv h
        rw [zeroWindow_getD] at hnd
        by_cases hc : max 0 ((argmaxQ temp) - spacing) ≤ pv.1 ∧
            pv.1 < min ((argmaxQ temp) + spacing) temp.length
        · rw [if_pos hc] at hnd
          exact absurd rfl hnd
        · rwa [if_neg hc] at hnd

/-- C3 counterexample: on the all-zero informativeness curve `[0, 0, 0]`
(e.g. an SNR curve with equal class means), requesting 2 POIs with spacing 2
returns `[0, 0]`: the same sample twice, at distance `0 < spacing`. -/
theorem c3_poi_spacing_counterexample :
    find_pois [0, 0, 0] 2 2 = [0, 0] ∧
    ¬ (find_pois [0, 0, 0] 2 2).Pairwise (fun a b => 2 ≤ natDist a b) := by
  decide

/-- C3 amended: whenever every value selected by the arg-max-and-suppress
loop is strictly positive (so that the arg-max never lands in an already
zeroed window), the returned POI list for one key byte never contains two
points closer than `spacing`. -/
theorem c3_poi_spacing_amended (curve : List ℚ) (numPois spacing : Nat)
    (hpos : ∀ v ∈ findPoisVals curve numPois spacing, 0 < v) :
    (find_pois curve numPois spacing).Pairwise (fun a b => spacing ≤ natDist a b) := by
  have h := findPoisGo_spaced spacing numPois curve
    (fun pv hm => hpos pv.2 (List.mem_map_of_mem Prod.snd hm))
  exact h.1.map Prod.fst (fun a b hab => hab)

/-- C3 witness: a curve with two positive peaks selected at spacing 3. -/
theorem c3_poi_spacing_witness :
    (∀ v ∈ findPoisVals [0, 0, 5, 0, 0, 0, 0, 3, 0] 2 3, 0 < v) ∧
    (find_pois [0, 0, 5, 0, 0, 0, 0, 3, 0] 2 3).Pairwise
      (fun a b => 3 ≤ natDist a b) :=
  ⟨by decide, c3_poi_spacing_amended [0, 0, 5, 0, 0, 0, 0, 3, 0] 2 3 (by decide)⟩

/-! ## C8 -/

/-- Float addition of possibly-NaN scores is commutative. -/
theorem optAdd_comm (x y : Option ℝ) : optAdd x y = optAdd y x := by
  cases x <;> cases y <;> simp [optAdd, add_comm]

/-- C8: the recombined score is the element-wise sum of the two channel
score matrices, and fusion is commutative: fusing amplitude with phase gives
the same fused scores, best guess and rank as fusing phase with
amplitude. -/
theorem c8_recombination_commutative (ampl phase : Nat → Nat → Option ℝ) :
    (∀ bnum kguess,
      recombine ampl phase bnum kguess = optAdd (ampl bnum kguess) (phase bnum kguess)) ∧
    recombine ampl phase = recombine phase ampl ∧
    (∀ bnum, recombBestguess ampl phase bnum = recombBestguess phase ampl bnum) ∧
    (∀ bnum key, recombRank ampl phase bnum key = recombRank phase ampl bnum key) := by
  have hcomm : recombine ampl phase = recombine phase ampl := by
    funext bnum kguess
    exact optAdd_comm _ _
  refine ⟨fun _ _ => rfl, hcomm, fun bnum => ?_, fun bnum key => ?_⟩
  · unfold recombBestguess
    rw [hcomm]
  · unfold recombRank
    rw [hcomm]

/-! ## List-sum algebra helpers -/

/-- Sums distribute over pointwise addition of mapped functions. -/
theorem sum_map_add {α : Type} (l : List α) (f g : α → ℚ) :
    (l.map fun x => f x + g x).sum = (l.map f).sum + (l.map g).sum := by
  induction l with
  | nil => simp
  | cons a t ih => simp [ih]; ring

/-- Sums distribute over pointwise subtraction of mapped functions. -/
theorem sum_map_sub {α : Type} (l : List α) (f g : α → ℚ) :
    (l.map fun x => f x - g x).sum = (l.map f).sum - (l.map g).sum := by
  induction l with
  | nil => simp
  | cons a t ih => simp [ih]; ring

/-- A list of nonnegative rationals with zero sum is all zero. -/
theorem sum_eq_zero_all_zero {l : List ℚ} (hn : ∀ x ∈ l, 0 ≤ x) (h : l.sum = 0) :
    ∀ x ∈ l, x = 0 := by
  induction l with
  | nil => simp
  | cons a t ih =>
    have ha : 0 ≤ a := hn a (List.mem_cons_self _ _)
    have ht : 0 ≤ t.sum := List.sum_nonneg (fun x hx => hn x (List.mem_cons_of_mem _ hx))
    have hsum : a + t.sum = 0 := by simpa using h
    have ha0 : a = 0 := by linarith
    have ht0 : t.sum = 0 := by linarith
    intro x hx
    rcases List.mem_cons.mp hx with h | h
    · exact h ▸ ha0
    · exact ih (fun y hy => hn y (List.mem_cons_of_mem _ hy)) ht0 x h

/-- Strict Cauchy–Schwarz for list sums: if the second vector has positive
energy and the first is not a scalar multiple of it on the list, the
inequality is strict. -/
theorem list_cs_strict (l : List Nat) (u v : Nat → ℚ)
    (hB : 0 < (l.map fun x => v x ^ 2).sum)
    (hnp : ¬ ∃ t : ℚ, ∀ x ∈ l, u x = t * v x) :
    ((l.map fun x => u x * v x).sum) ^ 2 <
      ((l.map fun x => u x ^ 2).sum) * ((l.map fun x => v x ^ 2).sum) := by
  set N := (l.map fun x => u x * v x).sum with hN
  set A := (l.map fun x => u x ^ 2).sum with hA
  set B := (l.map fun x => v x ^ 2).sum with hBdef
  have key : (l.map fun x => (u x * B - v x * N) ^ 2).sum = B * (A * B - N ^ 2) := by
    have expand : (l.map fun x => (u x * B - v x * N) ^ 2)
        = l.map fun x => (B ^ 2 * u x ^ 2 - (2 * B * N) * (u x * v x)) + N ^ 2 * v x ^ 2 :=
      List.map_congr_left (fun x _ => by ring)
    rw [expand, sum_map_add, sum_map_sub, List.sum_map_mul_left, List.sum_map_mul_left,
      List.sum_map_mul_left, ← hN, ← hA, ← hBdef]
    ring
  have hnonneg : 0 ≤ (l.map fun x => (u x * B - v x * N) ^ 2).sum := by
    refine List.sum_nonneg ?_
    intro x hx
    obtain ⟨y, _, rfl⟩ := List.mem_map.mp hx
    positivity
  have h0 : 0 ≤ B * (A * B - N ^ 2) := key ▸ hnonneg
  have hle : N ^ 2 ≤ A * B := by nlinarith [h0, hB]
  rcases lt_or_eq_of_le hle with h | h
  · exact h
  · exfalso
    have hzero : (l.map fun x => (u x * B - v x * N) ^ 2).sum = 0 := by
      rw [key, ← h]
      ring
    have hall : ∀ x ∈ l, u x * B - v x * N = 0 := by
      have hsq := sum_eq_zero_all_zero
        (fun y hy => by
          obtain ⟨x, _, rfl⟩ := List.mem_map.mp hy
          positivity) hzero
      intro x hx
      have hx2 := hsq _ (List.mem_map_of_mem _ hx)
      exact pow_eq_zero_iff (by norm_num) |>.mp hx2
    have hBne : B ≠ 0 := ne_of_gt hB
    refine hnp ⟨N / B, fun x hx => ?_⟩
    have hx0 := hall x hx
    have h2 : u x * B = N * v x := by linarith
    rw [div_mul_eq_mul_div, eq_div_iff hBne, h2]

/-! ## Centered-sum lemmas for the Pearson coefficient -/

/-- The centered sum of squares is nonnegative. -/
theorem centeredSumSq_nonneg (l : List ℚ) : 0 ≤ centeredSumSq l := by
  refine List.sum_nonneg ?_
  intro x hx
  obtain ⟨y, _, rfl⟩ := List.mem_map.mp hx
  positivity

/-- A constant list has zero centered sum of squares. -/
theorem centeredSumSq_of_const (l : List ℚ) (c : ℚ) (h : ∀ x ∈ l, x = c) :
    centeredSumSq l = 0 := by
  cases l with
  | nil => rfl
  | cons a t =>
    have hm : npMean (a :: t) = c :=
      npMean_const _ c (List.cons_ne_nil a t) h
    refine List.sum_eq_zero ?_
    intro x hx
    obtain ⟨y, hy, rfl⟩ := List.mem_map.mp hx
    rw [h y hy, hm]
    ring

/-- If a list has zero centered sum of squares, every element equals the
mean. -/
theorem centeredSumSq_eq_zero_all_mean {l : List ℚ} (h : centeredSumSq l = 0) :
    ∀ x ∈ l, x = npMean l := by
  intro x hx
  have hz := sum_eq_zero_all_zero
    (fun y hy => by
      obtain ⟨z, _, rfl⟩ := List.mem_map.mp hy
      positivity) h
  have hx2 := hz _ (List.mem_map_of_mem _ hx)
  have := pow_eq_zero_iff (two_ne_zero) |>.mp hx2
  linarith [this]

/-- A list with two distinct members has positive centered sum of
squares. -/
theorem centeredSumSq_pos (l : List ℚ) (x y : ℚ) (hx : x ∈ l) (hy : y ∈ l)
    (hxy : x ≠ y) : 0 < centeredSumSq l := by
  rcases lt_or_eq_of_le (centeredSumSq_nonneg l) with h | h
  · exact h
  · exfalso
    have hall := centeredSumSq_eq_zero_all_mean h.symm
    exact hxy ((hall x hx).trans (hall y hy).symm)

/-- The centered sum of squares of a mapped list as a sum over the index
list. -/
theorem centeredSumSq_map (ps : List Nat) (f : Nat → ℚ) :
    centeredSumSq (ps.map f)
      = (ps.map fun p => (f p - npMean (ps.map f)) ^ 2).sum := by
  rw [centeredSumSq, List.map_map]
  rfl

/-- The centered sum of products of two mapped lists as a sum over the index
list. -/
theorem centeredSumProd_map (ps : List Nat) (f g : Nat → ℚ) :
    centeredSumProd (ps.map f) (ps.map g)
      = (ps.map fun p =>
          (f p - npMean (ps.map f)) * (g p - npMean (ps.map g))).sum := by
  rw [centeredSumProd, List.zipWith_map, List.zipWith_same]

/-- The Pearson coefficient of a list with itself is 1 (perfect
correlation), provided the list is not constant. -/
theorem pearsonR_self (xs : List ℚ) (h : 0 < centeredSumSq xs) :
    pearsonR xs xs = some 1 := by
  have hcond : ¬ (centeredSumSq xs = 0 ∨ centeredSumSq xs = 0) := by
    push_neg
    exact ⟨ne_of_gt h, ne_of_gt h⟩
  rw [pearsonR, if_neg hcond]
  have hprod : centeredSumProd xs xs = centeredSumSq xs := by
    rw [centeredSumProd, centeredSumSq, List.zipWith_same]
    exact congrArg List.sum (List.map_congr_left fun x _ => by ring)
  have hpos : (0:ℝ) < (centeredSumSq xs : ℝ) := by exact_mod_cast h
  rw [hprod, Real.mul_self_sqrt hpos.le]
  exact congrArg some (div_self (ne_of_gt hpos))

/-- If the first list is not a positive affine function of the second on the
index list, the Pearson coefficient is defined and strictly below 1. -/
theorem pearsonR_lt_one (ps : List Nat) (f g : Nat → ℚ)
    (hA : 0 < centeredSumSq (ps.map f)) (hB : 0 < centeredSumSq (ps.map g))
    (hnp : ¬ ∃ t b : ℚ, 0 < t ∧ ∀ p ∈ ps, f p = t * g p + b) :
    ∃ r : ℝ, pearsonR (ps.map f) (ps.map g) = some r ∧ r < 1 := by
  set μf := npMean (ps.map f) with hμf
  set μg := npMean (ps.map g) with hμg
  set N := centeredSumProd (ps.map f) (ps.map g) with hNdef
  set A := centeredSumSq (ps.map f) with hAdef
  set B := centeredSumSq (ps.map g) with hBdef
  have hcond : ¬ (A = 0 ∨ B = 0) := by
    push_neg
    exact ⟨ne_of_gt hA, ne_of_gt hB⟩
  have hAr : (0:ℝ) < (A : ℝ) := by exact_mod_cast hA
  have hBr : (0:ℝ) < (B : ℝ) := by exact_mod_cast hB
  have hden : (0:ℝ) < Real.sqrt (A : ℝ) * Real.sqrt (B : ℝ) :=
    mul_pos (Real.sqrt_pos.mpr hAr) (Real.sqrt_pos.mpr hBr)
  refine ⟨_, by rw [pearsonR, if_neg hcond], ?_⟩
  rw [div_lt_one hden]
  by_cases hN : N ≤ 0
  · have : (N : ℝ) ≤ 0 := by exact_mod_cast hN
    linarith
  · push_neg at hN
    have hcs : N ^ 2 < A * B := by
      have hB' : 0 < (ps.map fun p => (g p - μg) ^ 2).sum := by
        rw [← centeredSumSq_map]
        exact hB
      have hnp' : ¬ ∃ t : ℚ, ∀ p ∈ ps, (f p - μf) = t * (g p - μg) := by
        rintro ⟨t, ht⟩
        have hNt : N = t * B := by
          rw [hNdef, centeredSumProd_map, ← hμf, ← hμg]
          have h1 : (ps.map fun p => (f p - μf) * (g p - μg))
              = ps.map fun p => t * ((g p - μg) ^ 2) :=
            List.map_congr_left (fun p hp => by rw [ht p hp]; ring)
          rw [h1, List.sum_map_mul_left, hBdef, centeredSumSq_map, ← hμg]
        by_cases ht0 : 0 < t
        · refine hnp ⟨t, μf - t * μg, ht0, fun p hp => ?_⟩
          have := ht p hp
          linarith [this]
        · push_neg at ht0
          nlinarith [hNt, hB, hN]
      have hmain := list_cs_strict ps (fun p => f p - μf) (fun p => g p - μg) hB' hnp'
      beta_reduce at hmain
      rw [hμf, hμg] at hmain
      rw [← centeredSumSq_map, ← centeredSumSq_map, ← centeredSumProd_map] at hmain
      rw [← hNdef, ← hAdef, ← hBdef] at hmain
      exact hmain
    have hNr : (0:ℝ) ≤ (N : ℝ) := by
      have : (0:ℝ) < (N : ℝ) := by exact_mod_cast hN
      linarith
    rw [← Real.sqrt_mul hAr.le]
    refine (Real.lt_sqrt hNr).mpr ?_
    have : ((N : ℚ) : ℝ) ^ 2 < ((A : ℚ) : ℝ) * ((B : ℚ) : ℝ) := by
      exact_mod_cast hcs
    exact this

/-! ## numpy argmax / argsort under a unique strict maximum -/

/-- The argmax scan returns the index of the unique strict maximum once the
invariants of the loop hold. -/
theorem npArgmaxGo_strictmax (s : Nat → Option ℝ) (n kt : Nat) (xk : ℝ)
    (hktn : kt < n) (hskt : s kt = some xk)
    (hs : ∀ i, i < n → i ≠ kt → ∃ x, s i = some x ∧ x < xk) :
    ∀ fuel i maxInd mp, i + fuel = n → maxInd < i → s maxInd = some mp →
      (kt < i → maxInd = kt) → npArgmaxGo s fuel maxInd mp i = kt := by
  intro fuel
  induction fuel with
  | zero =>
    intro i maxInd mp hin hmi hsm hinv
    exact hinv (by omega)
  | succ fl ih =>
    intro i maxInd mp hin hmi hsm hinv
    have hi_lt : i < n := by omega
    by_cases hik : i = kt
    · subst hik
      obtain ⟨x, hx, hxlt⟩ := hs maxInd (by omega) (by omega)
      have hmp : mp = x := Option.some_inj.mp (hsm.symm.trans hx)
      have hcond : mp < xk := hmp ▸ hxlt
      rw [npArgmaxGo, hskt]
      show (if mp < xk then npArgmaxGo s fl i xk (i + 1)
            else npArgmaxGo s fl maxInd mp (i + 1)) = i
      rw [if_pos hcond]
      exact ih (i + 1) i xk (by omega) (by omega) hskt (fun _ => rfl)
    · obtain ⟨x, hx, hxlt⟩ := hs i hi_lt hik
      rw [npArgmaxGo, hx]
      show (if mp < x then npArgmaxGo s fl i x (i + 1)
            else npArgmaxGo s fl maxInd mp (i + 1)) = kt
      by_cases hcmp : mp < x
      · have hkti : ¬ kt < i := by
          intro hlt
          have hmk := hinv hlt
          have hmpxk : mp = xk := by
            rw [hmk] at hsm
            exact Option.some_inj.mp (hsm.symm.trans hskt)
          rw [hmpxk] at hcmp
          exact absurd hcmp (not_lt.mpr hxlt.le)
        rw [if_pos hcmp]
        refine ih (i + 1) i x (by omega) (by omega) hx ?_
        intro h
        exfalso
        rcases lt_or_eq_of_le (Nat.lt_succ_iff.mp h) with hl | he
        · exact hkti hl
        · exact hik he.symm
      · rw [if_neg hcmp]
        refine ih (i + 1) maxInd mp (by omega) (by omega) hsm ?_
        intro h
        rcases lt_or_eq_of_le (Nat.lt_succ_iff.mp h) with hl | he
        · exact hinv hl
        · exact absurd he.symm hik

/-- `np.argmax` returns the index of the unique strict maximum of an
all-finite score vector. -/
theorem npArgmax_strictmax (s : Nat → Option ℝ) (n kt : Nat) (xk : ℝ)
    (hktn : kt < n) (hskt : s kt = some xk)
    (hs : ∀ i, i < n → i ≠ kt → ∃ x, s i = some x ∧ x < xk) :
    npArgmax s n = kt := by
  have hn0 : ¬ n = 0 := by omega
  by_cases hk0 : kt = 0
  · subst hk0
    rw [npArgmax, if_neg hn0, hskt]
    exact npArgmaxGo_strictmax s n 0 xk hktn hskt hs (n - 1) 1 0 xk
      (by omega) (by omega) hskt (fun _ => rfl)
  · obtain ⟨x0, hx0, _⟩ := hs 0 (by omega) (Ne.symm hk0)
    rw [npArgmax, if_neg hn0, hx0]
    exact npArgmaxGo_strictmax s n kt xk hktn hskt hs (n - 1) 1 0 x0
      (by omega) (by omega) hx0 (fun h => absurd (by omega : kt = 0) hk0)

/-- Unfolding of the Bool comparator to the underlying proposition. -/
theorem npLe_decide (s : Nat → Option ℝ) (i j : Nat) :
    (npLeB s i j = true) = npLe s i j := by
  simp [npLeB]

/-- The argsort comparator is total. -/
theorem npLeB_total (s : Nat → Option ℝ) :
    ∀ a b, (npLeB s a b || npLeB s b a) = true := by
  intro a b
  rw [Bool.or_eq_true, npLe_decide, npLe_decide]
  cases hsa : s a <;> cases hsb : s b <;> simp [npLe, hsa, hsb]
  · omega
  · rename_i x y
    rcases lt_trichotomy x y with h | h | h
    · exact Or.inl (Or.inl h)
    · rcases le_total a b with hab | hab
      · exact Or.inl (Or.inr ⟨h, hab⟩)
      · exact Or.inr (Or.inr ⟨h.symm, hab⟩)
    · exact Or.inr (Or.inl h)

/-- The argsort comparator is transitive. -/
theorem npLeB_trans (s : Nat → Option ℝ) :
    ∀ a b c, npLeB s a b = true → npLeB s b c = true → npLeB s a c = true := by
  intro a b c
  rw [npLe_decide, npLe_decide, npLe_decide]
  cases hsa : s a <;> cases hsb : s b <;> cases hsc : s c <;>
    simp [npLe, hsa, hsb, hsc]
  · omega
  · rintro (h1 | ⟨he1, hi1⟩) (h2 | ⟨he2, hi2⟩)
    · exact Or.inl (lt_trans h1 h2)
    · exact Or.inl (he2 ▸ h1)
    · exact Or.inl (he1 ▸ h2)
    · exact Or.inr ⟨he1.trans he2, le_trans hi1 hi2⟩

/-- The rank (`argsort` descending, then `index`) of the unique strict
maximum of an all-finite score vector is 0. -/
theorem npRank_strictmax (s : Nat → Option ℝ) (n kt : Nat) (xk : ℝ)
    (hktn : kt < n) (hskt : s kt = some xk)
    (hs : ∀ i, i < n → i ≠ kt → ∃ x, s i = some x ∧ x < xk) :
    npRank s n kt = 0 := by
  set L := (List.range n).mergeSort (npLeB s) with hL
  have hperm : L.Perm (List.range n) := List.mergeSort_perm _ _
  have hsorted :
      L.Pairwise (fun a b => npLeB s a b = true) :=
    List.sorted_mergeSort (npLeB_trans s) (npLeB_total s) (List.range n)
  have hLne : L ≠ [] := by
    intro h
    have hlen : (List.range n).length = 0 := by rw [← hperm.length_eq, h]; rfl
    rw [List.length_range] at hlen
    omega
  have hlast : L.getLast hLne = kt := by
    by_contra hne
    have hmem_kt : kt ∈ L := hperm.mem_iff.mpr (List.mem_range.mpr hktn)
    have hlast_mem : L.getLast hLne ∈ L := List.getLast_mem hLne
    have hlast_lt : L.getLast hLne < n := List.mem_range.mp (hperm.mem_iff.mp hlast_mem)
    have hsplit : L.dropLast ++ [L.getLast hLne] = L := List.dropLast_append_getLast hLne
    have hmem' : kt ∈ L.dropLast := by
      have hm := hmem_kt
      rw [← hsplit] at hm
      rcases List.mem_append.mp hm with h | h
      · exact h
      · simp at h
        exact absurd h.symm hne
    have hpw := hsorted
    rw [← hsplit] at hpw
    have hle := (List.pairwise_append.mp hpw).2.2 kt hmem' (L.getLast hLne) (by simp)
    rw [npLe_decide] at hle
    obtain ⟨x, hx, hxlt⟩ := hs (L.getLast hLne) hlast_lt hne
    rw [npLe] at hle
    rw [hskt, hx] at hle
    simp at hle
    rcases hle with h | ⟨he, _⟩
    · exact absurd h (not_lt.mpr hxlt.le)
    · rw [he] at hxlt
      exact lt_irrefl _ hxlt
  have hrev : ∃ t, L.reverse = kt :: t := by
    cases hr : L.reverse with
    | nil => exact absurd (List.reverse_eq_nil_iff.mp hr) hLne
    | cons a t =>
      have h1 : L.reverse.head? = some a := by rw [hr]; rfl
      have h2 : L.reverse.head? = some kt := by
        rw [List.head?_reverse, List.getLast?_eq_getLast L hLne, hlast]
      have hak : a = kt := Option.some_inj.mp (h1.symm.trans h2)
      exact ⟨t, by rw [hak]⟩
  obtain ⟨t, ht⟩ := hrev
  rw [npRank, npArgsortDesc, ← hL, ht, List.indexOf_cons_self]

/-! ## C1: the pcc attack on the zero-noise synthetic set -/

/-- In the zero-noise synthetic setting, the profiled mean of every realised
class equals the class value itself (all traces of class `c` have amplitude
exactly `c`). -/
theorem classMean_eq (ps : List Nat) (kt c : Nat)
    (hcov : ∃ p ∈ ps, hwSbox (p ^^^ kt) = c) : classMean ps kt c = (c : ℚ) := by
  obtain ⟨p0, hp0, hc0⟩ := hcov
  have hmemf : p0 ∈ ps.filter (fun p => hwSbox (p ^^^ kt) == c) :=
    List.mem_filter.mpr ⟨hp0, by simp [hc0]⟩
  have hne : classSet ps kt c ≠ [] := by
    rw [classSet]
    intro h
    rw [List.map_eq_nil_iff] at h
    rw [h] at hmemf
    exact absurd hmemf (List.not_mem_nil p0)
  refine npMean_const _ _ hne ?_
  intro x hx
  rw [classSet] at hx
  obtain ⟨p, hpf, rfl⟩ := List.mem_map.mp hx
  have hb := (List.mem_filter.mp hpf).2
  have heq : hwSbox (p ^^^ kt) = c := by simpa using hb
  exact_mod_cast heq

/-- When every class is realised, the `leaks` vector of hypothesis `kg`
equals the synthetic trace vector that the key byte `kg` would produce. -/
theorem pccLeaks_eq (ps : List Nat) (kt kg : Nat) (hkg : kg < 256)
    (hps : ∀ p ∈ ps, p < 256)
    (hcov : ∀ c, c ≤ 8 → ∃ p ∈ ps, hwSbox (p ^^^ kt) = c) :
    pccLeaks ps kt kg = synthTraces ps kg := by
  unfold pccLeaks synthTraces
  refine List.map_congr_left ?_
  intro p hp
  have hb : hwSbox (p ^^^ kg) ≤ 8 :=
    hwSbox_le_eight _ (List.mem_range.mpr (xor_lt_256 (hps p hp) hkg))
  exact classMean_eq ps kt _ (hcov _ hb)

/-- A synthetic trace set realising every class is nonconstant (it contains
amplitudes 0 and 8). -/
theorem synthTraces_csq_pos (ps : List Nat) (kt : Nat)
    (hcov : ∀ c, c ≤ 8 → ∃ p ∈ ps, hwSbox (p ^^^ kt) = c) :
    0 < centeredSumSq (synthTraces ps kt) := by
  obtain ⟨p0, hp0, h0⟩ := hcov 0 (by norm_num)
  obtain ⟨p8, hp8, h8⟩ := hcov 8 (le_refl 8)
  refine centeredSumSq_pos _ (0 : ℚ) (8 : ℚ) ?_ ?_ (by norm_num)
  · exact List.mem_map.mpr ⟨p0, hp0, by rw [h0]; norm_num⟩
  · exact List.mem_map.mpr ⟨p8, hp8, by rw [h8]; norm_num⟩

/-- `0 + r = r` on possibly-NaN scores: the accumulation starts from 0. -/
theorem optAdd_some_zero (x : Option ℝ) : optAdd (some 0) x = x := by
  cases x <;> simp [optAdd]

/-- The true key hypothesis scores exactly 1: its predicted leak vector
coincides with the observed traces. -/
theorem pccScores_true_key (ps : List Nat) (kt : Nat) (hkt : kt < 256)
    (hps : ∀ p ∈ ps, p < 256)
    (hcov : ∀ c, c ≤ 8 → ∃ p ∈ ps, hwSbox (p ^^^ kt) = c) :
    pccScores ps kt kt = some 1 := by
  rw [pccScores, pccLeaks_eq ps kt kt hkt hps hcov,
    pearsonR_self _ (synthTraces_csq_pos ps kt hcov), optAdd_some_zero]

/-- Every wrong hypothesis whose leak vector is nonconstant scores strictly
below 1: its leak vector cannot be a positive affine function of the traces,
because integrality of the leakage values together with the unique class-8
plaintext forces the affine map to be the identity and hence the key guess to
be the true key. -/
theorem pccScores_wrong_key (ps : List Nat) (kt kg : Nat)
    (hkt : kt < 256) (hkg : kg < 256) (hne : kg ≠ kt)
    (hps : ∀ p ∈ ps, p < 256)
    (hcov : ∀ c, c ≤ 8 → ∃ p ∈ ps, hwSbox (p ^^^ kt) = c)
    (hnc : ∃ p ∈ ps, ∃ q ∈ ps, hwSbox (p ^^^ kg) ≠ hwSbox (q ^^^ kg)) :
    ∃ r : ℝ, pccScores ps kt kg = some r ∧ r < 1 := by
  have hA : 0 < centeredSumSq (ps.map (fun p => (hwSbox (p ^^^ kg) : ℚ))) := by
    obtain ⟨p, hp, q, hq, hpq⟩ := hnc
    refine centeredSumSq_pos _ ((hwSbox (p ^^^ kg) : ℚ)) ((hwSbox (q ^^^ kg) : ℚ))
      (List.mem_map_of_mem _ hp) (List.mem_map_of_mem _ hq) ?_
    exact_mod_cast hpq
  have hB : 0 < centeredSumSq (ps.map (fun p => (hwSbox (p ^^^ kt) : ℚ))) :=
    synthTraces_csq_pos ps kt hcov
  have hnp : ¬ ∃ t b : ℚ, 0 < t ∧
      ∀ p ∈ ps, (hwSbox (p ^^^ kg) : ℚ) = t * (hwSbox (p ^^^ kt) : ℚ) + b := by
    rintro ⟨t, b, ht, hrel⟩
    obtain ⟨p0, hp0, h0⟩ := hcov 0 (by norm_num)
    obtain ⟨p1, hp1, h1⟩ := hcov 1 (by norm_num)
    obtain ⟨p8, hp8, h8⟩ := hcov 8 (le_refl 8)
    have e0 : (hwSbox (p0 ^^^ kg) : ℚ) = b := by
      have h := hrel p0 hp0
      rw [h0] at h
      push_cast at h
      ring_nf at h
      linarith
    have e1 : (hwSbox (p1 ^^^ kg) : ℚ) = t + b := by
      have h := hrel p1 hp1
      rw [h1] at h
      push_cast at h
      ring_nf at h
      linarith
    have e8 : (hwSbox (p8 ^^^ kg) : ℚ) = 8 * t + b := by
      have h := hrel p8 hp8
      rw [h8] at h
      push_cast at h
      ring_nf at h
      linarith
    have hb0 : (0:ℚ) ≤ b := by
      rw [← e0]
      positivity
    have hm8le : ((hwSbox (p8 ^^^ kg) : ℚ)) ≤ 8 := by
      have hle := hwSbox_le_eight (p8 ^^^ kg)
        (List.mem_range.mpr (xor_lt_256 (hps p8 hp8) hkg))
      exact_mod_cast hle
    have ht1 : t ≤ 1 := by linarith
    have hge1 : (1:ℚ) ≤ t := by
      have hmm : ((hwSbox (p0 ^^^ kg)) : ℚ) < ((hwSbox (p1 ^^^ kg)) : ℚ) := by
        linarith
      have hlt : hwSbox (p0 ^^^ kg) < hwSbox (p1 ^^^ kg) := by exact_mod_cast hmm
      have hlt' : hwSbox (p0 ^^^ kg) + 1 ≤ hwSbox (p1 ^^^ kg) := hlt
      have hcast : ((hwSbox (p0 ^^^ kg)) : ℚ) + 1 ≤ ((hwSbox (p1 ^^^ kg)) : ℚ) := by
        exact_mod_cast hlt'
      linarith
    have hteq : t = 1 := le_antisymm ht1 hge1
    have hbeq : b = 0 := by
      rw [hteq] at e8
      linarith
    have hf8 : ((hwSbox (p8 ^^^ kg)) : ℚ) = 8 := by
      rw [e8, hteq, hbeq]
      ring
    have hm8n : hwSbox (p8 ^^^ kg) = 8 := by exact_mod_cast hf8
    have hx8g : p8 ^^^ kg = 125 :=
      (hwSbox_eq_eight_iff _
        (List.mem_range.mpr (xor_lt_256 (hps p8 hp8) hkg))).mp hm8n
    have hx8t : p8 ^^^ kt = 125 :=
      (hwSbox_eq_eight_iff _
        (List.mem_range.mpr (xor_lt_256 (hps p8 hp8) hkt))).mp h8
    exact hne (Nat.xor_right_inj.mp (hx8g.trans hx8t.symm))
  obtain ⟨r, hr, hlt⟩ := pearsonR_lt_one ps
    (fun p => (hwSbox (p ^^^ kg) : ℚ)) (fun p => (hwSbox (p ^^^ kt) : ℚ)) hA hB hnp
  refine ⟨r, ?_, hlt⟩
  rw [pccScores, pccLeaks_eq ps kt kg hkg hps hcov, optAdd_some_zero]
  exact hr

/-- C1 counterexample: a zero-noise synthetic trace set fully covered by the
claim's premises (nine plaintexts, true key byte 2, one trace in each of the
nine classes, per-class means built from that same data) on which the `pcc`
attack fails: all nine plaintexts share `hw[sbox[p]] = 4`, so hypothesis
`kg = 0` predicts a constant leak vector, `pearsonr` yields NaN for it, and
`np.argmax` returns the index of that first NaN — best guess 0, not the true
key byte 2. -/
theorem c1_pcc_counterexample :
    pccBestguess cexPlaintexts 2 = 0 ∧
    ¬ (pccBestguess cexPlaintexts 2 = 2 ∧ pccPge cexPlaintexts 2 = 0) := by
  have hconstlab : ∀ p ∈ cexPlaintexts, hwSbox (p ^^^ 0) = 4 := by decide
  have hconst : ∀ x ∈ pccLeaks cexPlaintexts 2 0, x = classMean cexPlaintexts 2 4 := by
    intro x hx
    obtain ⟨p, hp, rfl⟩ := List.mem_map.mp hx
    rw [hconstlab p hp]
  have hcs : centeredSumSq (pccLeaks cexPlaintexts 2 0) = 0 :=
    centeredSumSq_of_const _ _ hconst
  have h0 : pccScores cexPlaintexts 2 0 = none := by
    rw [pccScores, pearsonR, if_pos (Or.inl hcs)]
    rfl
  have hbg : pccBestguess cexPlaintexts 2 = 0 := by
    rw [pccBestguess, npArgmax, if_neg (by norm_num : ¬ (256 = 0)), h0]
  refine ⟨hbg, fun hcl => ?_⟩
  rw [hbg] at hcl
  exact absurd hcl.1 (by norm_num)

/-- C1 amended: on every zero-noise synthetic trace set whose profiling data
realises all nine leakage classes (so that every per-class mean is defined)
and on which every hypothesis predicts a nonconstant leak vector (so that
every Pearson coefficient is defined), the correlation-mode attack assigns
its maximum score to the true key byte: `bestguess` equals the true key byte
and its rank (PGE) is 0. -/
theorem c1_pcc_zero_noise_amended (ps : List Nat) (kt : Nat) (hkt : kt < 256)
    (hps : ∀ p ∈ ps, p < 256)
    (hcov : ∀ c, c ≤ 8 → ∃ p ∈ ps, hwSbox (p ^^^ kt) = c)
    (hnc : ∀ kg, kg < 256 → ∃ p ∈ ps, ∃ q ∈ ps, hwSbox (p ^^^ kg) ≠ hwSbox (q ^^^ kg)) :
    pccBestguess ps kt = kt ∧ pccPge ps kt = 0 := by
  have hskt := pccScores_true_key ps kt hkt hps hcov
  have hs : ∀ i, i < 256 → i ≠ kt → ∃ x, pccScores ps kt i = some x ∧ x < 1 :=
    fun i hi hne => pccScores_wrong_key ps kt i hkt hi hne hps hcov (hnc i hi)
  exact ⟨npArgmax_strictmax _ 256 kt 1 hkt hskt hs,
         npRank_strictmax _ 256 kt 1 hkt hskt hs⟩

/-- C1 witness: the full synthetic trace set over all 256 plaintexts with
true key byte 5 satisfies the amended hypotheses, and the attack recovers
the key with rank 0. -/
theorem c1_pcc_zero_noise_witness :
    (∀ c, c ≤ 8 → ∃ p ∈ List.range 256, hwSbox (p ^^^ 5) = c) ∧
    pccBestguess (List.range 256) 5 = 5 ∧ pccPge (List.range 256) 5 = 0 := by
  have h := c1_pcc_zero_noise_amended (List.range 256) 5 (by norm_num)
    (fun p hp => List.mem_range.mp hp) (by decide) (by decide)
  exact ⟨by decide, h.1, h.2⟩

end SC2
